import Mathlib

/-!
Shallow embedding of the byoc-tools cleanup pipeline and proofs about it.

The repository is a four-stage pipeline over an object store: enumerate
prefixes, aggregate sizes, resolve a "dirty" set against an allow-list, and
delete the dirty prefixes in bulk batches.  Strings are modelled as Lean
`String` (a list of characters); the Python string primitives the scripts use
(`split`, `strip`, `lower`, `startswith`, `replace(old, new, 1)`) are embedded
as character-list functions with the same semantics.  The object store is
modelled explicitly: paginated listing responses as lists of page results, and
the mutable bucket of the deletion engine as a list of keys together with the
per-key and per-call failure behaviour of its bulk-delete endpoint.
-/

/-! ### Python string primitives -/

/-- Embeds Python `s.split(sep)` for a one-character separator, on the
character list: `"".split` is `[""]`, separators at the ends produce empty
segments, exactly as in Python. -/
def pySplitChar (sep : Char) : List Char → List (List Char)
  | [] => [[]]
  | c :: rest =>
    let r := pySplitChar sep rest
    if c = sep then [] :: r
    else (c :: r.headD []) :: r.tail

/-- Embeds Python `s.split(sep)` on `String`. -/
def pySplit (sep : Char) (s : String) : List String :=
  (pySplitChar sep s.data).map String.mk

/-- Embeds Python `s.strip()`: drop whitespace from both ends. -/
def pyStrip (s : String) : String :=
  String.mk (((s.data.dropWhile Char.isWhitespace).reverse.dropWhile
    Char.isWhitespace).reverse)

/-- Embeds Python `s.lower()` (character-wise). -/
def pyLower (s : String) : String :=
  String.mk (s.data.map Char.toLower)

/-- Embeds Python `s.startswith(pre)`. -/
def pyStartsWith (pre s : String) : Bool :=
  pre.data.isPrefixOf s.data

/-- Embeds Python `s.replace(old, new, 1)` on the character list: the first
occurrence of `old` (if any) is replaced by `new`. -/
def pyReplaceFirstAux (old new : List Char) : List Char → List Char
  | [] => []
  | c :: rest =>
    if old.isPrefixOf (c :: rest) then new ++ (c :: rest).drop old.length
    else c :: pyReplaceFirstAux old new rest

/-- Embeds Python `s.replace(old, new, 1)` on `String`. -/
def pyReplaceFirst (old new s : String) : String :=
  String.mk (pyReplaceFirstAux old.data new.data s.data)

/-! ### Identifier extraction (get_final_dirty_data_prefix.py /
get_final_dirty_backup_prefix.py) -/

/-- Embeds `extract_uuid_from_path` of get_final_dirty_data_prefix.py:
split on `/` and return the last part when there are at least two parts,
otherwise the whole path. -/
def extract_uuid_from_path (full_path : String) : String :=
  let parts := pySplit '/' full_path
  if 2 ≤ parts.length then parts.getLastD "" else full_path

/-- Embeds `extract_next_level_uuid_from_path` of
get_final_dirty_backup_prefix.py; its body is character-identical to
`extract_uuid_from_path`. -/
def extract_next_level_uuid_from_path (full_path : String) : String :=
  let parts := pySplit '/' full_path
  if 2 ≤ parts.length then parts.getLastD "" else full_path

/-- The final `/`-delimited segment of a path, written independently of the
split-based implementation: the maximal suffix free of `/`. -/
def lastSegment (p : String) : String :=
  String.mk ((p.data.reverse.takeWhile (fun c => c != '/')).reverse)

/-! ### Dirty-set resolver (get_final_dirty_data_prefix.py) -/

/-- Embeds `find_dirty_data_prefixes`: keep the paths whose extracted
identifier is not in the allow-list, in input order (the loop appends one
path per iteration when its identifier is absent from the set). -/
def find_dirty_data_prefixes (data_prefixes : List String)
    (non_terminated_uuids : Finset String) : List String :=
  data_prefixes.filter
    (fun p => decide (extract_uuid_from_path p ∉ non_terminated_uuids))

/-- Embeds the resolver's written output: `main` sorts the dirty paths with
Python `sorted` before writing them.  Python `sorted` on strings produces the
unique lexicographically ordered permutation; it is modelled by insertion
sort under the lexicographic order on `String`. -/
def sorted_dirty_paths (data_prefixes : List String)
    (non_terminated_uuids : Finset String) : List String :=
  List.insertionSort (fun a b => a ≤ b)
    (find_dirty_data_prefixes data_prefixes non_terminated_uuids)

/-! ### Allow-list loading (`load_non_terminated_uuids`, shared by both
resolver scripts) -/

/-- The fixed namespacing literal the loaders strip from allow-list lines. -/
def CH_LITERAL : String := "ch-s3-"

/-- What one stripped, non-blank allow-list line loads as: the leading
literal removed (via replace-first) when the line starts with it, otherwise
the line itself. -/
def stripTag (s : String) : String :=
  if pyStartsWith CH_LITERAL s then pyReplaceFirst CH_LITERAL "" s else s

/-- Embeds `load_non_terminated_uuids` (identical in
get_final_dirty_data_prefix.py and get_final_dirty_backup_prefix.py): iterate
over the file's lines, `strip()` each, skip blanks, remove a leading literal
via `line.replace("ch-s3-", "", 1)` under a `startswith` guard, and add the
result to a set. -/
def load_non_terminated_uuids (lines : List String) : Finset String :=
  lines.foldl
    (fun uuids rawLine =>
      let line := pyStrip rawLine
      if line = "" then uuids
      else if pyStartsWith CH_LITERAL line then
        insert (pyReplaceFirst CH_LITERAL "" line) uuids
      else insert line uuids)
    ∅

/-! ### Paginated listing (utils.py) -/

/-- One response of the store's delimiter-grouped listing call: a page of
common-prefix group entries plus whether a continuation token follows, or a
raised client error. -/
inductive ListPage where
  | ok (groups : List String) (hasNext : Bool)
  | err (msg : String)

/-- Embeds the per-entry processing inside `list_next_level_prefixes`: drop
the parent prefix from the group entry, drop a trailing slash, and skip the
entry when nothing remains. -/
def relativeChild (parent full : String) : Option String :=
  let rel := String.mk (full.data.drop parent.data.length)
  let rel := if rel.data.getLast? = some '/' then String.mk rel.data.dropLast
             else rel
  if rel = "" then none else some rel

/-- Embeds `list_next_level_prefixes` of utils.py against a store whose
successive page responses are given: accumulate the processed group entries
of each page into a set; stop after a page with no continuation token; a
raised listing error breaks the loop, returning what has accumulated so far. -/
def list_next_level_prefixes (parent : String) : List ListPage → Finset String
  | [] => ∅
  | ListPage.err _ :: _ => ∅
  | ListPage.ok gs hasNext :: rest =>
    let cur := (gs.filterMap (relativeChild parent)).toFinset
    if hasNext then cur ∪ list_next_level_prefixes parent rest else cur

/-- One response of the store's non-delimited listing call used for sizing: a
page of object sizes plus whether a continuation token follows, or a raised
client error. -/
inductive SizePage where
  | ok (sizes : List Nat) (hasNext : Bool)
  | err (msg : String)

/-- Embeds `sum_sizes_in_prefix` of utils.py against a store whose successive
page responses are given: sum the object sizes of each page; stop after a
page with no continuation token; a raised listing error breaks the loop,
returning what has accumulated so far. -/
def sum_sizes_in_prefix : List SizePage → Nat
  | [] => 0
  | SizePage.err _ :: _ => 0
  | SizePage.ok sizes hasNext :: rest =>
    sizes.sum + (if hasNext then sum_sizes_in_prefix rest else 0)

/-! ### Deletion engine (delete_prefixes.py) -/

/-- The object store the deletion engine runs against: the keys currently in
the bucket, plus the bulk-delete endpoint's behaviour — which keys it refuses
with a per-key error (code and message), and which whole batches make the
call raise a client error.  The failure behaviours are fixed properties of
the endpoint, unchanged by deletions. -/
structure Store where
  keys : List String
  failKey : String → Option (String × String)
  failCall : List String → Option String

/-- Modelled from the spec: `list_all_objects` is imported from utils in
delete_prefixes.py but its definition is not among the provided source files.
Per spec section 4.4 it exhaustively lists, with full pagination, all object
keys under the given prefix; here: the stored keys that start with it. -/
def list_all_objects (st : Store) (p : String) : List String :=
  st.keys.filter (fun k => pyStartsWith p k)

/-- What one `delete_objects_batch`-level step produces: the store afterwards,
the bulk-delete calls issued (each entry is the key list passed to the
endpoint), the count of keys reported deleted, and the formatted error
strings. -/
structure BatchOut where
  store : Store
  calls : List (List String)
  deleted : Nat
  errors : List String

/-- Embeds `delete_objects_batch` of delete_prefixes.py: an empty key list
returns at once with no call; more than 1000 keys raises ValueError
(`Except.error`); otherwise one bulk-delete call is issued — a raised client
error is caught and becomes one error string with nothing deleted, and
otherwise the response's deleted entries are counted and its per-key errors
are formatted as `key: code - message`. -/
def delete_objects_batch (st : Store) (keys : List String) :
    Except String BatchOut :=
  if keys.isEmpty then .ok ⟨st, [], 0, []⟩
  else if 1000 < keys.length then
    .error "Too many keys for batch delete (max 1000)"
  else
    match st.failCall keys with
    | some m => .ok ⟨st, [keys], 0, ["ClientError: " ++ m]⟩
    | none =>
      let okKeys := keys.filter (fun k => (st.failKey k).isNone)
      let errs := keys.filterMap
        (fun k => (st.failKey k).map
          (fun cm => k ++ ": " ++ cm.1 ++ " - " ++ cm.2))
      .ok ⟨{ st with keys := st.keys.filter (fun k => decide (k ∉ okKeys)) },
        [keys], okKeys.length, errs⟩

/-- The slice sequence `keys[i:i+n]` for `i in range(0, len(keys), n)`, with
an explicit fuel argument (the list's length bounds the number of slices) so
that it is structurally recursive and evaluates by kernel reduction. -/
def chunksGo {α : Type} (n : Nat) : Nat → List α → List (List α)
  | _, [] => []
  | 0, _ :: _ => []
  | fuel + 1, a :: rest =>
    ((a :: rest).take n) :: chunksGo n fuel ((a :: rest).drop n)

/-- The batch slices of the deletion loop: `keys[i:i+n]` for each loop
index. -/
def chunksOf {α : Type} (n : Nat) (l : List α) : List (List α) :=
  chunksGo n l.length l

/-- Per-path outcome of `delete_prefix`: the store afterwards, the bulk-delete
calls issued, the objects found, the deleted count and the error strings. -/
structure PathOut where
  store : Store
  calls : List (List String)
  found : Nat
  deleted : Nat
  errors : List String

/-- Embeds the sequential batch loop inside `delete_prefix`: issue
`delete_objects_batch` for each slice in order, accumulating deleted counts
and error lists; a raised ValueError propagates. -/
def runBatches (st : Store) : List (List String) → Except String BatchOut
  | [] => .ok ⟨st, [], 0, []⟩
  | b :: bs =>
    match delete_objects_batch st b with
    | .error e => .error e
    | .ok o1 =>
      match runBatches o1.store bs with
      | .error e => .error e
      | .ok o2 => .ok ⟨o2.store, o1.calls ++ o2.calls, o1.deleted + o2.deleted,
          o1.errors ++ o2.errors⟩

/-- Embeds `delete_prefix` of delete_prefixes.py: list all object keys under
the prefix; zero objects short-circuits with an empty result; dry-run returns
the found count with no deletion call; otherwise delete the listed keys in
slices of 1000, sequentially. -/
def delete_prefix (st : Store) (p : String) (dry_run : Bool) :
    Except String PathOut :=
  let object_keys := list_all_objects st p
  let total := object_keys.length
  if total = 0 then .ok ⟨st, [], 0, 0, []⟩
  else if dry_run then .ok ⟨st, [], total, 0, []⟩
  else
    match runBatches st (chunksOf 1000 object_keys) with
    | .error e => .error e
    | .ok o => .ok ⟨o.store, o.calls, total, o.deleted, o.errors⟩

/-- The number of keys the store's endpoint reports deleted for one issued
batch — a function of the endpoint's fixed failure behaviour only. -/
def callDeleted (st : Store) (b : List String) : Nat :=
  match st.failCall b with
  | some _ => 0
  | none => (b.filter (fun k => (st.failKey k).isNone)).length

/-- The error strings one issued batch contributes to its path's record. -/
def callErrors (st : Store) (b : List String) : List String :=
  match st.failCall b with
  | some m => ["ClientError: " ++ m]
  | none => b.filterMap (fun k => (st.failKey k).map
      (fun cm => k ++ ": " ++ cm.1 ++ " - " ++ cm.2))

/-- Embeds `get_confirmation` of delete_prefixes.py over the sequence of user
inputs: each input is stripped and lowercased; `yes` answers true and `no`
answers false; anything else prints one re-prompt message and reads again.
Returns the answer together with the number of re-prompt messages printed;
`none` when the inputs run out (Python's `input()` would raise there). -/
def get_confirmation : List String → Option (Bool × Nat)
  | [] => none
  | r :: rest =>
    let response := pyLower (pyStrip r)
    if response = "yes" then some (true, 0)
    else if response = "no" then some (false, 0)
    else
      match get_confirmation rest with
      | none => none
      | some (b, k) => some (b, k + 1)

/-- One per-path record of the deletion engine's results map. -/
structure PathRecord where
  path : String
  found : Nat
  deleted : Nat
  errors : List String

/-- Embeds `delete_prefixes_concurrent`: every dirty path is processed by
`delete_prefix` exactly once and its record carries only its own outputs.
Completion order affects only progress printing; the results map holds one
entry per path, modelled here in submission order. -/
def delete_prefixes_concurrent (st : Store) (dry_run : Bool) :
    List String → Except String (Store × List (List String) × List PathRecord)
  | [] => .ok (st, [], [])
  | p :: rest =>
    match delete_prefix st p dry_run with
    | .error e => .error e
    | .ok o =>
      match delete_prefixes_concurrent o.store dry_run rest with
      | .error e => .error e
      | .ok (st2, cs, rs) =>
        .ok (st2, o.calls ++ cs, ⟨p, o.found, o.deleted, o.errors⟩ :: rs)

/-- The failed-prefix test of `main` (delete_prefixes.py): a record fails
when it has error strings, or in live mode when fewer objects were deleted
than found. -/
def failed_records (dry_run : Bool) (rs : List PathRecord) : List PathRecord :=
  rs.filter
    (fun r => !r.errors.isEmpty || (!dry_run && decide (r.deleted < r.found)))

/-- The observable outcome of one run of the deletion engine once the input
file has loaded: final store, issued bulk-delete calls, per-path records and
the process exit code. -/
structure RunOut where
  store : Store
  calls : List (List String)
  results : List PathRecord
  exitCode : Nat

/-- The processing-and-reporting tail of `main`: run the deletion over all
paths, then exit 1 exactly when the run is live and some prefix failed. -/
def runConfirmed (st : Store) (dirty_paths : List String) (dry_run : Bool) :
    Except String RunOut :=
  match delete_prefixes_concurrent st dry_run dirty_paths with
  | .error e => .error e
  | .ok (st2, cs, rs) =>
    .ok ⟨st2, cs, rs,
      if !dry_run && !(failed_records dry_run rs).isEmpty then 1 else 0⟩

/-- Embeds `main` of delete_prefixes.py from the point where the dirty-path
list has loaded: an empty list exits 0 at once — no summary, no prompt, no
client, no store call; otherwise a live run blocks on the confirmation gate
before anything touches the store — a negative answer exits 0 with no
processing, exhausted input is an uncaught exception — while a dry run skips
the gate. -/
def delete_prefixes_main (st : Store) (dirty_paths responses : List String)
    (dry_run : Bool) : Except String RunOut :=
  if dirty_paths.isEmpty then .ok ⟨st, [], [], 0⟩
  else if dry_run then runConfirmed st dirty_paths true
  else
    match get_confirmation responses with
    | none => .error "unexpected end of input"
    | some (false, _) => .ok ⟨st, [], [], 0⟩
    | some (true, _) => runConfirmed st dirty_paths false

/-! ### Theorems -/

/-! ### Lemmas about the splitter -/

theorem pySplitChar_ne_nil (sep : Char) (s : List Char) :
    pySplitChar sep s ≠ [] := by
  cases s with
  | nil => simp [pySplitChar]
  | cons c rest =>
    simp only [pySplitChar]
    by_cases hc : c = sep <;> simp [hc]

theorem pySplitChar_length (sep : Char) (s : List Char) :
    (pySplitChar sep s).length = s.count sep + 1 := by
  induction s with
  | nil => simp [pySplitChar]
  | cons c rest ih =>
    have hne := pySplitChar_ne_nil sep rest
    simp only [pySplitChar]
    by_cases hc : c = sep
    · subst hc
      rw [if_pos rfl, List.count_cons_self]
      simp only [List.length_cons]
      omega
    · rw [if_neg hc, List.count_cons_of_ne (Ne.symm hc)]
      simp only [List.length_cons]
      have htail : (pySplitChar sep rest).tail.length
          = (pySplitChar sep rest).length - 1 := List.length_tail _
      omega

theorem pySplitChar_of_not_mem (sep : Char) (s : List Char) (h : sep ∉ s) :
    pySplitChar sep s = [s] := by
  induction s with
  | nil => rfl
  | cons c rest ih =>
    have hc : c ≠ sep := fun hh => h (hh ▸ List.mem_cons_self c rest)
    have hrest : sep ∉ rest := fun hh => h (List.mem_cons_of_mem c hh)
    simp only [pySplitChar, ih hrest, if_neg hc]
    rfl

theorem takeWhile_append_last {α : Type} (q : α → Bool) (xs : List α) (c : α)
    (hc : q c = false) : (xs ++ [c]).takeWhile q = xs.takeWhile q := by
  induction xs with
  | nil => simp [List.takeWhile_cons, hc]
  | cons a xs ih =>
    by_cases ha : q a = true
    · simp [List.takeWhile_cons, ha, ih]
    · have ha' : q a = false := by
        cases hqa : q a
        · rfl
        · exact absurd hqa ha
      simp [List.takeWhile_cons, ha']

theorem takeWhile_append_of_forall {α : Type} (q : α → Bool) (xs ys : List α)
    (h : ∀ x ∈ xs, q x = true) :
    (xs ++ ys).takeWhile q = xs ++ ys.takeWhile q := by
  induction xs with
  | nil => simp
  | cons a xs ih =>
    have ha : q a = true := h a (List.mem_cons_self a xs)
    simp only [List.cons_append, List.takeWhile_cons, ha, if_true]
    rw [ih (fun x hx => h x (List.mem_cons_of_mem a hx))]

theorem takeWhile_append_of_exists {α : Type} (q : α → Bool) (xs ys : List α)
    (h : ¬ ∀ x ∈ xs, q x = true) :
    (xs ++ ys).takeWhile q = xs.takeWhile q := by
  induction xs with
  | nil => exact absurd (by simp) h
  | cons a xs ih =>
    by_cases ha : q a = true
    · have hx : ¬ ∀ x ∈ xs, q x = true := fun hall => h (by
        intro x hxx
        rcases List.mem_cons.mp hxx with h1 | h2
        · exact h1 ▸ ha
        · exact hall x h2)
      simp [List.takeWhile_cons, ha, ih hx]
    · have ha' : q a = false := by
        cases hqa : q a
        · rfl
        · exact absurd hqa ha
      simp [List.takeWhile_cons, ha']

theorem pySplitChar_getLastD (sep : Char) (s : List Char) (d : List Char) :
    (pySplitChar sep s).getLastD d
      = (s.reverse.takeWhile (fun c => c != sep)).reverse := by
  induction s generalizing d with
  | nil => simp [pySplitChar]
  | cons c rest ih =>
    rcases h : pySplitChar sep rest with _ | ⟨h1, t⟩
    · exact absurd h (pySplitChar_ne_nil sep rest)
    · have ihh : ∀ d', (h1 :: t).getLastD d'
          = (rest.reverse.takeWhile (fun c => c != sep)).reverse := by
        intro d'; rw [← h]; exact ih d'
      simp only [pySplitChar, h]
      by_cases hc : c = sep
      · subst hc
        rw [if_pos rfl, List.getLastD_cons, List.reverse_cons,
          takeWhile_append_last _ _ _ (by simp)]
        exact ihh h1
      · rw [if_neg hc]
        simp only [List.headD_cons, List.tail_cons, List.reverse_cons]
        cases t with
        | nil =>
          -- a single segment: rest holds no separator
          have hlen := pySplitChar_length sep rest
          rw [h] at hlen
          have hmem : sep ∉ rest := by
            rw [← List.count_eq_zero]
            simp at hlen
            omega
          have hone := pySplitChar_of_not_mem sep rest hmem
          rw [h] at hone
          have hh1 : h1 = rest := by injection hone
          rw [hh1]
          have hall : ∀ x ∈ rest.reverse, (fun cc => cc != sep) x = true := by
            intro x hx
            have hxr : x ∈ rest := List.mem_reverse.mp hx
            simp only [bne_iff_ne, ne_eq, decide_eq_true_eq]
            exact fun hxx => hmem (hxx ▸ hxr)
          rw [takeWhile_append_of_forall _ _ _ hall]
          rw [List.takeWhile_cons_of_pos (by simp [hc])]
          simp
        | cons t0 t1 =>
          -- several segments: rest holds a separator
          have hlen := pySplitChar_length sep rest
          rw [h] at hlen
          have hmem : sep ∈ rest := by
            by_contra hnm
            rw [List.count_eq_zero.mpr hnm] at hlen
            simp at hlen
          have hnall : ¬ ∀ x ∈ rest.reverse, (fun cc => cc != sep) x = true := by
            intro hall
            have := hall sep (List.mem_reverse.mpr hmem)
            simp at this
          rw [takeWhile_append_of_exists _ _ _ hnall, ← ihh d]
          rw [List.getLastD_cons, List.getLastD_cons,
            List.getLastD_cons d h1 (t0 :: t1), List.getLastD_cons h1 t0 t1]

theorem lastSegment_of_no_slash (p : String) (hp : '/' ∉ p.data) :
    lastSegment p = p := by
  unfold lastSegment
  have hall : ∀ x ∈ p.data.reverse, (fun cc => cc != '/') x = true := by
    intro x hx
    have hxr : x ∈ p.data := List.mem_reverse.mp hx
    simp only [bne_iff_ne, ne_eq, decide_eq_true_eq]
    exact fun hxx => hp (hxx ▸ hxr)
  rw [List.takeWhile_eq_self_iff.mpr hall, List.reverse_reverse]

theorem extract_uuid_eq_lastSegment (p : String) :
    extract_uuid_from_path p = lastSegment p := by
  simp only [extract_uuid_from_path, pySplit]
  by_cases h : 2 ≤ ((pySplitChar '/' p.data).map String.mk).length
  · rw [if_pos h]
    have hmk : ("" : String) = String.mk [] := rfl
    rw [hmk, List.getLastD_map, pySplitChar_getLastD]
    rfl
  · rw [if_neg h]
    rw [List.length_map, pySplitChar_length] at h
    have hmem : '/' ∉ p.data := by
      rw [← List.count_eq_zero]
      omega
    exact (lastSegment_of_no_slash p hmem).symm

/-- C7: for every path string, identifier extraction returns the final
slash-delimited segment (the maximal suffix free of `/`); a path with no
slash is returned whole; the backup variant computes the same function; the
spec's three concrete examples hold. -/
theorem claim_C7_identifier_extraction :
    (∀ p : String, extract_uuid_from_path p = lastSegment p)
    ∧ (∀ p : String, extract_next_level_uuid_from_path p
        = extract_uuid_from_path p)
    ∧ (∀ p : String, '/' ∉ p.data → extract_uuid_from_path p = p)
    ∧ extract_uuid_from_path "top/leaf" = "leaf"
    ∧ extract_uuid_from_path "top/mid/leaf" = "leaf"
    ∧ extract_uuid_from_path "onlyone" = "onlyone"
    ∧ extract_next_level_uuid_from_path "top/mid/leaf" = "leaf" := by
  refine ⟨extract_uuid_eq_lastSegment, fun p => rfl, ?_, by decide, by decide,
    by decide, by decide⟩
  intro p hp
  rw [extract_uuid_eq_lastSegment p]
  exact lastSegment_of_no_slash p hp

/-- C7 witness: the hypothesis-bearing clause of `claim_C7_identifier_extraction`
applied at a concrete slash-free path. -/
theorem claim_C7_witness : extract_uuid_from_path "onlyone" = "onlyone" :=
  claim_C7_identifier_extraction.2.2.1 "onlyone" (by decide)

/-- C1 (amended): for a duplicate-free list of discovered paths P — the
discovered-paths artifact's own invariant — and any allow-list A, the
resolver's output is sorted, duplicate-free, and holds exactly the paths of P
whose extracted identifier is not in A; re-sorting P first does not change the
output.  (Without the duplicate-free assumption the output keeps duplicates:
see the counterexample.) -/
theorem claim_C1_dirty_set_resolver (P : List String) (A : Finset String)
    (hP : P.Nodup) :
    List.Sorted (fun a b => a ≤ b) (sorted_dirty_paths P A)
    ∧ (sorted_dirty_paths P A).Nodup
    ∧ (sorted_dirty_paths P A).toFinset
        = P.toFinset.filter (fun p => extract_uuid_from_path p ∉ A)
    ∧ sorted_dirty_paths (List.insertionSort (fun a b => a ≤ b) P) A
        = sorted_dirty_paths P A := by
  refine ⟨List.sorted_insertionSort _ _, ?_, ?_, ?_⟩
  · exact ((List.perm_insertionSort _ _).nodup_iff).mpr
      (hP.filter _)
  · ext x
    simp [sorted_dirty_paths, find_dirty_data_prefixes,
      List.mem_insertionSort, List.mem_filter]
  · have hperm : List.Perm
        (find_dirty_data_prefixes (List.insertionSort (fun a b => a ≤ b) P) A)
        (find_dirty_data_prefixes P A) :=
      (List.perm_insertionSort (fun a b => a ≤ b) P).filter _
    exact List.eq_of_perm_of_sorted
      ((List.perm_insertionSort _ _).trans
        (hperm.trans (List.perm_insertionSort _ _).symm))
      (List.sorted_insertionSort _ _) (List.sorted_insertionSort _ _)

/-- C1 witness: the theorem applied to the spec's end-to-end scenario, two
distinct discovered paths with one identifier on the allow-list. -/
theorem claim_C1_witness :
    (["top/b", "top/a"] : List String).Nodup
    ∧ (List.Sorted (fun a b => a ≤ b) (sorted_dirty_paths ["top/b", "top/a"] {"a"})
      ∧ (sorted_dirty_paths ["top/b", "top/a"] {"a"}).Nodup
      ∧ (sorted_dirty_paths ["top/b", "top/a"] {"a"}).toFinset
          = (["top/b", "top/a"] : List String).toFinset.filter
              (fun p => extract_uuid_from_path p ∉ ({"a"} : Finset String))
      ∧ sorted_dirty_paths
            (List.insertionSort (fun a b => a ≤ b) ["top/b", "top/a"]) {"a"}
          = sorted_dirty_paths ["top/b", "top/a"] {"a"}) :=
  ⟨by decide, claim_C1_dirty_set_resolver ["top/b", "top/a"] {"a"} (by decide)⟩

/-- C1 counterexample: with a duplicated discovered path the resolver's output
keeps the duplicate — it is sorted but not deduplicated, refuting the claim
for arbitrary path lists. -/
theorem claim_C1_counterexample :
    sorted_dirty_paths ["top/a", "top/a"] ∅ = ["top/a", "top/a"]
    ∧ ¬ (sorted_dirty_paths ["top/a", "top/a"] ∅).Nodup := by
  have heval : sorted_dirty_paths ["top/a", "top/a"] ∅ = ["top/a", "top/a"] := by
    simp [sorted_dirty_paths, find_dirty_data_prefixes, List.insertionSort,
      List.orderedInsert, le_refl]
  exact ⟨heval, by rw [heval]; simp⟩

theorem load_non_terminated_uuids_foldl_mem (lines : List String)
    (acc : Finset String) (x : String) :
    x ∈ lines.foldl
      (fun uuids rawLine =>
        let line := pyStrip rawLine
        if line = "" then uuids
        else if pyStartsWith CH_LITERAL line then
          insert (pyReplaceFirst CH_LITERAL "" line) uuids
        else insert line uuids)
      acc
    ↔ x ∈ acc ∨ ∃ l ∈ lines, pyStrip l ≠ "" ∧ x = stripTag (pyStrip l) := by
  induction lines generalizing acc with
  | nil => simp
  | cons l lines ih =>
    rw [List.foldl_cons]
    have hstep :
        (let line := pyStrip l
         if line = "" then acc
         else if pyStartsWith CH_LITERAL line then
           insert (pyReplaceFirst CH_LITERAL "" line) acc
         else insert line acc)
        = if pyStrip l = "" then acc
          else insert (stripTag (pyStrip l)) acc := by
      by_cases hblank : pyStrip l = ""
      · simp [hblank]
      · by_cases htag : pyStartsWith CH_LITERAL (pyStrip l) = true
        · simp [hblank, htag, stripTag]
        · simp at htag
          simp [hblank, htag, stripTag]
    rw [hstep, ih]
    by_cases hblank : pyStrip l = ""
    · rw [if_pos hblank]
      simp [hblank]
    · rw [if_neg hblank]
      simp only [Finset.mem_insert]
      constructor
      · rintro ((hx | hx) | ⟨w, hw, hws, hwx⟩)
        · exact Or.inr ⟨l, List.mem_cons_self l lines, hblank, hx⟩
        · exact Or.inl hx
        · exact Or.inr ⟨w, List.mem_cons_of_mem l hw, hws, hwx⟩
      · rintro (hx | ⟨w, hw, hws, hwx⟩)
        · exact Or.inl (Or.inr hx)
        · rcases List.mem_cons.mp hw with rfl | hw'
          · exact Or.inl (Or.inl hwx)
          · exact Or.inr ⟨w, hw', hws, hwx⟩

theorem pyReplaceFirst_strips_leading (s : String)
    (h : pyStartsWith CH_LITERAL s = true) :
    pyReplaceFirst CH_LITERAL "" s = String.mk (s.data.drop 6) := by
  rcases hs : s.data with _ | ⟨c, rest⟩
  · exfalso
    unfold pyStartsWith at h
    rw [hs] at h
    exact absurd h (by decide)
  · unfold pyStartsWith at h
    rw [hs] at h
    unfold pyReplaceFirst
    rw [hs]
    unfold pyReplaceFirstAux
    rw [if_pos h]
    rfl

/-- C8 (amended): allow-list loading maps the file's lines to a deduplicated
set of identifiers where each line is first whitespace-trimmed: trimmed-blank
lines are skipped, a trimmed line starting with the literal `ch-s3-` loads
with exactly that leading literal removed (the replace-first call removes
precisely the first six characters), and any other trimmed line loads as its
trimmed self.  (A raw line carrying surrounding whitespace does not load
fully unchanged: see the counterexample.) -/
theorem claim_C8_allow_list_loading :
    (∀ s : String, pyStartsWith CH_LITERAL s = true →
      pyReplaceFirst CH_LITERAL "" s = String.mk (s.data.drop 6))
    ∧ (∀ (lines : List String) (x : String),
        x ∈ load_non_terminated_uuids lines
          ↔ ∃ l ∈ lines, pyStrip l ≠ "" ∧ x = stripTag (pyStrip l))
    ∧ load_non_terminated_uuids ["ch-s3-abc123"] = {"abc123"}
    ∧ load_non_terminated_uuids ["abc123"] = {"abc123"} := by
  refine ⟨pyReplaceFirst_strips_leading, ?_, by decide, by decide⟩
  intro lines x
  rw [load_non_terminated_uuids, load_non_terminated_uuids_foldl_mem]
  simp

/-- C8 counterexample: the line `"abc "` carries no literal, yet it does not
load unchanged — the loader strips surrounding whitespace, so the loaded set
holds `"abc"` and not `"abc "`. -/
theorem claim_C8_counterexample :
    load_non_terminated_uuids ["abc "] = {"abc"}
    ∧ ("abc " : String) ∉ load_non_terminated_uuids ["abc "] := by
  constructor
  · decide
  · decide

/-- C6 (amended): a listing error never aborts enumeration or sizing — the
functions return normally, with exactly the children / byte-sum accumulated
from the pages before the error (so the result is independent of anything
after the failure point), and with zero children / size zero exactly when the
failure hits the first page.  (An error after a successful page keeps that
page's partial contribution, so the result is not always zero: see the
counterexample.) -/
theorem claim_C6_listing_error_policy :
    (∀ (parent m : String) (tail : List ListPage),
      list_next_level_prefixes parent (ListPage.err m :: tail) = ∅)
    ∧ (∀ (m : String) (tail : List SizePage),
        sum_sizes_in_prefix (SizePage.err m :: tail) = 0)
    ∧ (∀ (parent m : String) (ps : List ListPage) (t1 t2 : List ListPage),
        list_next_level_prefixes parent (ps ++ ListPage.err m :: t1)
          = list_next_level_prefixes parent (ps ++ ListPage.err m :: t2))
    ∧ (∀ (m : String) (ps : List SizePage) (t1 t2 : List SizePage),
        sum_sizes_in_prefix (ps ++ SizePage.err m :: t1)
          = sum_sizes_in_prefix (ps ++ SizePage.err m :: t2)) := by
  refine ⟨fun _ _ _ => rfl, fun _ _ => rfl, ?_, ?_⟩
  · intro parent m ps t1 t2
    induction ps with
    | nil => rfl
    | cons p ps ih =>
      cases p with
      | err msg => rfl
      | ok gs hasNext =>
        cases hasNext with
        | false => rfl
        | true =>
          simp only [List.cons_append, list_next_level_prefixes, if_true,
            List.append_eq]
          rw [ih]
  · intro m ps t1 t2
    induction ps with
    | nil => rfl
    | cons p ps ih =>
      cases p with
      | err msg => rfl
      | ok sizes hasNext =>
        cases hasNext with
        | false => rfl
        | true =>
          simp only [List.cons_append, sum_sizes_in_prefix, if_true,
            List.append_eq]
          rw [ih]

/-- C6 counterexample: an error on the second page keeps the first page's
accumulation — one child (not zero children) and size 7 (not 0). -/
theorem claim_C6_counterexample :
    list_next_level_prefixes "p/" [ListPage.ok ["p/a/"] true, ListPage.err "E"]
        = {"a"}
    ∧ list_next_level_prefixes "p/"
        [ListPage.ok ["p/a/"] true, ListPage.err "E"] ≠ (∅ : Finset String)
    ∧ sum_sizes_in_prefix [SizePage.ok [7] true, SizePage.err "E"] = 7
    ∧ sum_sizes_in_prefix [SizePage.ok [7] true, SizePage.err "E"] ≠ 0 := by
  refine ⟨by decide, by decide, by decide, by decide⟩

theorem chunksGo_congr {α : Type} (n : Nat) (hn : 1 ≤ n) :
    ∀ (f1 f2 : Nat) (l : List α), l.length ≤ f1 → l.length ≤ f2 →
      chunksGo n f1 l = chunksGo n f2 l := by
  intro f1
  induction f1 with
  | zero =>
    intro f2 l h1 h2
    cases l with
    | nil => cases f2 <;> rfl
    | cons a rest => simp at h1
  | succ f ih =>
    intro f2 l h1 h2
    cases l with
    | nil => cases f2 <;> rfl
    | cons a rest =>
      cases f2 with
      | zero => simp at h2
      | succ g =>
        simp only [chunksGo]
        have hd1 : ((a :: rest).drop n).length ≤ f := by
          rw [List.length_drop]
          simp only [List.length_cons] at h1 ⊢
          omega
        have hd2 : ((a :: rest).drop n).length ≤ g := by
          rw [List.length_drop]
          simp only [List.length_cons] at h2 ⊢
          omega
        rw [ih g _ hd1 hd2]

theorem chunksOf_cons {α : Type} (n : Nat) (hn : 1 ≤ n) (a : α)
    (rest : List α) :
    chunksOf n (a :: rest)
      = (a :: rest).take n :: chunksOf n ((a :: rest).drop n) := by
  unfold chunksOf
  simp only [List.length_cons, chunksGo]
  have hd : ((a :: rest).drop n).length ≤ rest.length := by
    rw [List.length_drop]
    simp only [List.length_cons]
    omega
  rw [chunksGo_congr n hn rest.length ((a :: rest).drop n).length
    ((a :: rest).drop n) hd le_rfl]

theorem chunksOf_props {α : Type} (n : Nat) (hn : 1 ≤ n) (l : List α) :
    (∀ b ∈ chunksOf n l, b.length ≤ n ∧ b ≠ [])
    ∧ (chunksOf n l).length = (l.length + n - 1) / n
    ∧ (∀ b ∈ (chunksOf n l).dropLast, b.length = n)
    ∧ (∀ b, (chunksOf n l).getLast? = some b →
        b.length = if l.length % n = 0 then n else l.length % n) := by
  suffices H : ∀ (L : Nat) (l : List α), l.length ≤ L →
      (∀ b ∈ chunksOf n l, b.length ≤ n ∧ b ≠ [])
      ∧ (chunksOf n l).length = (l.length + n - 1) / n
      ∧ (∀ b ∈ (chunksOf n l).dropLast, b.length = n)
      ∧ (∀ b, (chunksOf n l).getLast? = some b →
          b.length = if l.length % n = 0 then n else l.length % n) by
    exact H l.length l le_rfl
  intro L
  induction L with
  | zero =>
    intro l hl
    have : l = [] := List.length_eq_zero.mp (Nat.le_zero.mp hl)
    subst this
    refine ⟨by simp [chunksOf, chunksGo], ?_, by simp [chunksOf, chunksGo],
      by simp [chunksOf, chunksGo]⟩
    simp only [chunksOf, List.length_nil, chunksGo]
    rw [Nat.div_eq_of_lt (by omega)]
  | succ L ih =>
    intro l hl
    cases l with
    | nil =>
      refine ⟨by simp [chunksOf, chunksGo], ?_, by simp [chunksOf, chunksGo],
        by simp [chunksOf, chunksGo]⟩
      simp only [chunksOf, List.length_nil, chunksGo]
      rw [Nat.div_eq_of_lt (by omega)]
    | cons a rest =>
      rw [chunksOf_cons n hn]
      by_cases hsm : (a :: rest).length ≤ n
      · -- everything fits in a single slice
        have hdrop : (a :: rest).drop n = [] := by
          rw [List.drop_eq_nil_iff]
          exact hsm
        rw [hdrop]
        have htake : (a :: rest).take n = a :: rest :=
          List.take_of_length_le hsm
        rw [htake]
        have hchunks : chunksOf n ([] : List α) = [] := rfl
        rw [hchunks]
        refine ⟨?_, ?_, ?_, ?_⟩
        · intro b hb
          rcases List.mem_singleton.mp hb with rfl
          exact ⟨hsm, by simp⟩
        · have hpos : 1 ≤ (a :: rest).length := by simp
          have h1 : (a :: rest).length + n - 1 = ((a :: rest).length - 1) + n := by
            omega
          rw [h1, Nat.add_div_right _ (by omega), Nat.div_eq_of_lt (by omega)]
          simp
        · intro b hb
          simp at hb
        · intro b hb
          have hb' : a :: rest = b := by
            simpa using hb
          subst hb'
          by_cases heq : (a :: rest).length = n
          · rw [heq, Nat.mod_self, if_pos rfl]
          · have hlt : (a :: rest).length < n := by omega
            rw [Nat.mod_eq_of_lt hlt,
              if_neg (by simp only [List.length_cons]; omega)]
      · -- more than one slice
        have hlen : (a :: rest).length = rest.length + 1 := rfl
        have hnlt : n < (a :: rest).length := by omega
        have hdlen : ((a :: rest).drop n).length = (a :: rest).length - n :=
          List.length_drop _ _
        have hdle : ((a :: rest).drop n).length ≤ L := by omega
        obtain ⟨ihb, ihlen, ihdl, ihgl⟩ := ih ((a :: rest).drop n) hdle
        have htlen : ((a :: rest).take n).length = n := by
          rw [List.length_take]
          omega
        have hne : chunksOf n ((a :: rest).drop n) ≠ [] := by
          intro hnil
          rw [hnil] at ihlen
          have hpos : 0 < (((a :: rest).drop n).length + n - 1) / n :=
            Nat.div_pos (by omega) (by omega)
          simp only [List.length_nil] at ihlen
          omega
        rcases hcc : chunksOf n ((a :: rest).drop n) with _ | ⟨c, cs⟩
        · exact absurd hcc hne
        refine ⟨?_, ?_, ?_, ?_⟩
        · intro b hb
          rcases List.mem_cons.mp hb with rfl | hb'
          · refine ⟨le_of_eq htlen, ?_⟩
            intro hbn
            rw [hbn] at htlen
            simp only [List.length_nil] at htlen
            omega
          · rw [hcc] at ihb
            exact ihb b (hcc ▸ hb')
        · have h2 : (a :: rest).length + n - 1
              = (((a :: rest).drop n).length + n - 1) + n := by omega
          have ihlen2 : (c :: cs).length
              = (((a :: rest).drop n).length + n - 1) / n := by
            rw [← hcc]
            exact ihlen
          rw [List.length_cons, ihlen2, h2, Nat.add_div_right _ (by omega)]
        · intro b hb
          rw [List.dropLast_cons₂] at hb
          rcases List.mem_cons.mp hb with rfl | hb'
          · exact htlen
          · exact ihdl b (by rw [hcc]; exact hb')
        · intro b hb
          rw [List.getLast?_cons_cons] at hb
          have hglb := ihgl b (by rw [hcc]; exact hb)
          have hmod : ((a :: rest).drop n).length % n = (a :: rest).length % n := by
            rw [hdlen]
            conv_rhs => rw [show (a :: rest).length = ((a :: rest).length - n) + n by
              omega]
            rw [Nat.add_mod_right]
          rw [hmod] at hglb
          exact hglb

/-- C2: for every prefix and every store, dry-run `delete_prefix` issues no
bulk-delete call, leaves the store untouched, and reports found-count equal
to the number of listed objects, deleted-count 0 and an empty error list. -/
theorem claim_C2_dry_run_is_pure (st : Store) (p : String) :
    delete_prefix st p true
      = .ok ⟨st, [], (list_all_objects st p).length, 0, []⟩ := by
  by_cases h : (list_all_objects st p).length = 0
  · simp [ delete_prefix, h]
  · simp [ delete_prefix, h]

theorem delete_objects_batch_ok (st : Store) (keys : List String)
    (h : keys.length ≤ 1000) :
    ∃ o : BatchOut, delete_objects_batch st keys = .ok o := by
  unfold delete_objects_batch
  by_cases he : keys.isEmpty
  · rw [if_pos he]
    exact ⟨_, rfl⟩
  · rw [if_neg he, if_neg (by omega)]
    match st.failCall keys with
    | some m => exact ⟨_, rfl⟩
    | none => exact ⟨_, rfl⟩

theorem runBatches_isOk (st : Store) (bs : List (List String))
    (h : ∀ b ∈ bs, b.length ≤ 1000) :
    ∃ o : BatchOut, runBatches st bs = .ok o := by
  induction bs generalizing st with
  | nil => exact ⟨_, rfl⟩
  | cons b bs ih =>
    obtain ⟨o1, ho1⟩ := delete_objects_batch_ok st b
      (h b (List.mem_cons_self b bs))
    obtain ⟨o2, ho2⟩ := ih o1.store (fun x hx => h x (List.mem_cons_of_mem b hx))
    refine ⟨⟨o2.store, o1.calls ++ o2.calls, o1.deleted + o2.deleted,
      o1.errors ++ o2.errors⟩, ?_⟩
    simp [runBatches, ho1, ho2]

/-- C9: `delete_objects_batch` rejects more than 1000 keys with an error, but
the chunking inside `delete_prefix` makes that branch unreachable: every
slice holds at most 1000 keys, so `delete_prefix` always returns normally and
every call it issues stays within the limit. -/
theorem claim_C9_batch_limit_unreachable :
    (∀ (st : Store) (keys : List String), 1000 < keys.length →
      delete_objects_batch st keys
        = .error "Too many keys for batch delete (max 1000)")
    ∧ (∀ l : List String, ∀ b ∈ chunksOf 1000 l, b.length ≤ 1000)
    ∧ (∀ (st : Store) (p : String) (d : Bool),
        ∃ o : PathOut, delete_prefix st p d = .ok o) := by
  refine ⟨?_, ?_, ?_⟩
  · intro st keys hlen
    have hne : keys.isEmpty = false := by
      cases keys with
      | nil => simp at hlen
      | cons a as => rfl
    unfold delete_objects_batch
    rw [hne]
    simp [hlen]
  · intro l b hb
    exact ((chunksOf_props 1000 (by omega) l).1 b hb).1
  · intro st p d
    unfold delete_prefix
    by_cases h : (list_all_objects st p).length = 0
    · rw [if_pos h]
      exact ⟨_, rfl⟩
    · rw [if_neg h]
      by_cases hd : d = true
      · rw [hd, if_pos rfl]
        exact ⟨_, rfl⟩
      · have hd' : d = false := by
          cases d
          · rfl
          · exact absurd rfl hd
        rw [hd']
        obtain ⟨o, ho⟩ := runBatches_isOk st
          (chunksOf 1000 (list_all_objects st p))
          (fun b hb => ((chunksOf_props 1000 (by omega) _).1 b hb).1)
        rw [ho]
        exact ⟨_, rfl⟩

theorem callDeleted_congr (fk : String → Option (String × String))
    (fc : List String → Option String) (st : Store) (hfk : st.failKey = fk)
    (hfc : st.failCall = fc) (b : List String) :
    callDeleted st b = callDeleted ⟨[], fk, fc⟩ b := by
  unfold callDeleted
  rw [hfk, hfc]

theorem callErrors_congr (fk : String → Option (String × String))
    (fc : List String → Option String) (st : Store) (hfk : st.failKey = fk)
    (hfc : st.failCall = fc) (b : List String) :
    callErrors st b = callErrors ⟨[], fk, fc⟩ b := by
  unfold callErrors
  rw [hfk, hfc]

theorem delete_objects_batch_spec (st : Store) (b : List String)
    (hbne : b ≠ []) (hble : b.length ≤ 1000) :
    ∃ st2 : Store, st2.failKey = st.failKey ∧ st2.failCall = st.failCall ∧
      delete_objects_batch st b
        = .ok ⟨st2, [b], callDeleted st b, callErrors st b⟩ := by
  have hbe : b.isEmpty = false := by
    cases b
    · exact absurd rfl hbne
    · rfl
  have hlt : ¬ 1000 < b.length := by omega
  rcases hm : st.failCall b with _ | m
  · refine ⟨{ st with
        keys := st.keys.filter
          (fun k => decide (k ∉ b.filter (fun k => (st.failKey k).isNone))) },
      rfl, rfl, ?_⟩
    unfold delete_objects_batch callDeleted callErrors
    simp [hbe, hlt, hm]
  · refine ⟨st, rfl, rfl, ?_⟩
    unfold delete_objects_batch callDeleted callErrors
    simp [hbe, hlt, hm]

theorem runBatches_spec (fk : String → Option (String × String))
    (fc : List String → Option String) (bs : List (List String)) :
    ∀ st : Store, st.failKey = fk → st.failCall = fc →
      (∀ b ∈ bs, b ≠ [] ∧ b.length ≤ 1000) →
      ∃ stf : Store, stf.failKey = fk ∧ stf.failCall = fc ∧
        runBatches st bs = .ok ⟨stf, bs,
          (bs.map (callDeleted ⟨[], fk, fc⟩)).sum,
          (bs.map (callErrors ⟨[], fk, fc⟩)).flatten⟩ := by
  induction bs with
  | nil =>
    intro st hfk hfc _
    exact ⟨st, hfk, hfc, rfl⟩
  | cons b bs ih =>
    intro st hfk hfc hb
    obtain ⟨hbne, hble⟩ := hb b (List.mem_cons_self b bs)
    obtain ⟨st2, hfk2, hfc2, hcall⟩ := delete_objects_batch_spec st b hbne hble
    obtain ⟨stf, hfk3, hfc3, hrun⟩ := ih st2 (hfk2.trans hfk) (hfc2.trans hfc)
      (fun x hx => hb x (List.mem_cons_of_mem b hx))
    refine ⟨stf, hfk3, hfc3, ?_⟩
    simp only [runBatches, hcall, hrun, List.map_cons, List.sum_cons,
      List.flatten_cons]
    rw [callDeleted_congr fk fc st hfk hfc, callErrors_congr fk fc st hfk hfc]
    simp

/-- C3: in live mode `delete_prefix` issues exactly the slice sequence of the
listed keys as its bulk-delete calls — ceil(K/1000) of them, each of exactly
1000 keys except the final one of K mod 1000 keys when K is not a multiple of
1000 — and the path's reported deleted-count is the sum of the per-call
success counts while its error list is exactly the concatenation of the
per-call error lists, so every call-level error string lands only in this
path's record. -/
theorem claim_C3_live_chunked_deletion (st : Store) (p : String) :
    (∃ stf : Store,
      delete_prefix st p false
        = .ok ⟨stf, chunksOf 1000 (list_all_objects st p),
            (list_all_objects st p).length,
            ((chunksOf 1000 (list_all_objects st p)).map
              (callDeleted ⟨[], st.failKey, st.failCall⟩)).sum,
            ((chunksOf 1000 (list_all_objects st p)).map
              (callErrors ⟨[], st.failKey, st.failCall⟩)).flatten⟩)
    ∧ (chunksOf 1000 (list_all_objects st p)).length
        = ((list_all_objects st p).length + 999) / 1000
    ∧ (∀ b ∈ (chunksOf 1000 (list_all_objects st p)).dropLast,
        b.length = 1000)
    ∧ (∀ b, (chunksOf 1000 (list_all_objects st p)).getLast? = some b →
        b.length = if (list_all_objects st p).length % 1000 = 0 then 1000
                   else (list_all_objects st p).length % 1000) := by
  obtain ⟨hbounds, hlen, hdl, hgl⟩ :=
    chunksOf_props 1000 (by omega) (list_all_objects st p)
  refine ⟨?_, ?_, hdl, hgl⟩
  · by_cases h : (list_all_objects st p).length = 0
    · have hnil : list_all_objects st p = [] := List.length_eq_zero.mp h
      refine ⟨st, ?_⟩
      unfold delete_prefix
      rw [if_pos (by rw [hnil]; rfl)]
      rw [hnil]
      rfl
    · obtain ⟨stf, _, _, hrun⟩ := runBatches_spec st.failKey st.failCall
        (chunksOf 1000 (list_all_objects st p)) st rfl rfl
        (fun b hb => ⟨(hbounds b hb).2, (hbounds b hb).1⟩)
      refine ⟨stf, ?_⟩
      unfold delete_prefix
      rw [if_neg h]
      simp only [Bool.false_eq_true, if_false, hrun]
  · rw [hlen]
    congr 1

/-- C10: an empty dirty-path list exits 0 immediately after loading, in both
modes, for every store and every input sequence: the confirmation prompt is
never consulted, no store call is made, the store is untouched and no
per-path record is produced. -/
theorem claim_C10_empty_input_short_circuit (st : Store)
    (responses : List String) (dry_run : Bool) :
    delete_prefixes_main st [] responses dry_run = .ok ⟨st, [], [], 0⟩ := rfl

theorem get_confirmation_spec (r : String) (rest : List String) :
    ∀ pre : List String,
      (∀ x ∈ pre, pyLower (pyStrip x) ≠ "yes" ∧ pyLower (pyStrip x) ≠ "no") →
      (pyLower (pyStrip r) = "yes" →
        get_confirmation (pre ++ r :: rest) = some (true, pre.length))
      ∧ (pyLower (pyStrip r) = "no" →
        get_confirmation (pre ++ r :: rest) = some (false, pre.length)) := by
  intro pre
  induction pre with
  | nil =>
    intro _
    constructor <;> intro hr
    · simp [get_confirmation, hr]
    · simp [get_confirmation, hr]
  | cons a pre ih =>
    intro hpre
    obtain ⟨hay, han⟩ := hpre a (List.mem_cons_self a pre)
    have ih' := ih (fun x hx => hpre x (List.mem_cons_of_mem a hx))
    constructor <;> intro hr
    · have h1 := ih'.1 hr
      simp [get_confirmation, hay, han, h1]
    · have h2 := ih'.2 hr
      simp [get_confirmation, hay, han, h2]

/-- C4: in live mode nothing touches the store before the confirmation gate
answers affirmatively: with any sequence of invalid inputs followed by a
negative answer, the gate re-prompts exactly once per invalid input (the
count in its result), and the run then exits 0 with the store unchanged, no
bulk-delete call issued and no per-path processing done. -/
theorem claim_C4_confirmation_gate (st : Store) (paths : List String)
    (pre : List String) (r : String) (rest : List String)
    (hpaths : paths ≠ [])
    (hpre : ∀ x ∈ pre,
      pyLower (pyStrip x) ≠ "yes" ∧ pyLower (pyStrip x) ≠ "no")
    (hr : pyLower (pyStrip r) = "no") :
    get_confirmation (pre ++ r :: rest) = some (false, pre.length)
    ∧ delete_prefixes_main st paths (pre ++ r :: rest) false
        = .ok ⟨st, [], [], 0⟩ := by
  have hconf := (get_confirmation_spec r rest pre hpre).2 hr
  refine ⟨hconf, ?_⟩
  unfold delete_prefixes_main
  have hne : paths.isEmpty = false := by
    cases paths
    · exact absurd rfl hpaths
    · rfl
  rw [hne]
  simp [hconf]

/-- C4 witness: the spec's scenario — responses `maybe` then `no` over a
non-empty dirty list give exactly one re-prompt, then a clean exit 0 with
zero store mutations, before any per-prefix processing. -/
theorem claim_C4_witness :
    get_confirmation (["maybe"] ++ "no" :: []) = some (false, 1)
    ∧ delete_prefixes_main ⟨["p/x"], fun _ => none, fun _ => none⟩ ["p/"]
        (["maybe"] ++ "no" :: []) false
        = .ok ⟨⟨["p/x"], fun _ => none, fun _ => none⟩, [], [], 0⟩ :=
  claim_C4_confirmation_gate ⟨["p/x"], fun _ => none, fun _ => none⟩ ["p/"]
    ["maybe"] "no" [] (by simp) (by decide) (by decide)

theorem exit_iff_failed (d : Bool) (rs : List PathRecord) :
    (if !d && !(failed_records d rs).isEmpty then 1 else 0) ≠ 0
      ↔ d = false ∧ ∃ rec ∈ rs,
          rec.errors ≠ [] ∨ (d = false ∧ rec.deleted < rec.found) := by
  cases d
  · simp only [Bool.not_false, Bool.true_and, eq_self_iff_true, true_and]
    by_cases hemp : failed_records false rs = []
    · rw [hemp]
      constructor
      · intro h0
        simp at h0
      · rintro ⟨rec, hrec, hpred⟩
        exfalso
        have hmem : rec ∈ failed_records false rs := by
          unfold failed_records
          rw [List.mem_filter]
          refine ⟨hrec, ?_⟩
          simpa using hpred
        rw [hemp] at hmem
        simp at hmem
    · have hemp' : (failed_records false rs).isEmpty = false := by
        cases hB : failed_records false rs
        · exact absurd hB hemp
        · rfl
      rw [hemp']
      constructor
      · intro _
        rcases List.exists_mem_of_ne_nil _ hemp with ⟨rec, hrec⟩
        have hmem := List.mem_filter.mp hrec
        refine ⟨rec, hmem.1, ?_⟩
        simpa using hmem.2
      · intro _
        simp
  · simp

theorem runConfirmed_exit (st : Store) (paths : List String) (d : Bool)
    (out : RunOut) (h : runConfirmed st paths d = .ok out) :
    out.exitCode ≠ 0
      ↔ d = false ∧ ∃ rec ∈ out.results,
          rec.errors ≠ [] ∨ (d = false ∧ rec.deleted < rec.found) := by
  unfold runConfirmed at h
  rcases hc : delete_prefixes_concurrent st d paths with e | ⟨st2, cs, rs⟩
  · rw [hc] at h
    exact absurd h (by simp)
  · rw [hc] at h
    have hout : out = ⟨st2, cs, rs,
        if !d && !(failed_records d rs).isEmpty then 1 else 0⟩ := by
      injection h with h'
      exact h'.symm
    subst hout
    exact exit_iff_failed d rs

/-- C5: a loaded run exits non-zero exactly when it is live and at least one
path record has errors — its error list non-empty, or (in live mode) fewer
objects deleted than found; dry runs and user-aborted runs exit 0, their
result list being empty in the aborted case. -/
theorem claim_C5_exit_code (st : Store) (paths responses : List String)
    (dry_run : Bool) (out : RunOut)
    (h : delete_prefixes_main st paths responses dry_run = .ok out) :
    out.exitCode ≠ 0
      ↔ dry_run = false ∧ ∃ rec ∈ out.results,
          rec.errors ≠ [] ∨ (dry_run = false ∧ rec.deleted < rec.found) := by
  unfold delete_prefixes_main at h
  by_cases hp : paths.isEmpty = true
  · rw [if_pos hp] at h
    have hout : out = ⟨st, [], [], 0⟩ := by
      injection h with h'
      exact h'.symm
    subst hout
    simp
  · rw [if_neg hp] at h
    cases dry_run
    · simp only [Bool.false_eq_true, if_false] at h
      rcases hc : get_confirmation responses with _ | ⟨b, k⟩
      · rw [hc] at h
        exact absurd h (by simp)
      · rw [hc] at h
        cases b
        · have hout : out = ⟨st, [], [], 0⟩ := by
            injection h with h'
            exact h'.symm
          subst hout
          simp
        · exact runConfirmed_exit st paths false out h
    · simp only [if_true] at h
      exact runConfirmed_exit st paths true out h

/-- C5 witness: a live confirmed run over one prefix whose only key the
endpoint refuses exits 1, and the equivalence holds at that run. -/
theorem claim_C5_witness :
    ∃ out : RunOut,
      delete_prefixes_main
        ⟨["p/x"],
          fun k => if k = "p/x" then some ("AccessDenied", "denied") else none,
          fun _ => none⟩
        ["p/"] ["yes"] false = .ok out
      ∧ out.exitCode = 1
      ∧ (out.exitCode ≠ 0
          ↔ false = false ∧ ∃ rec ∈ out.results,
              rec.errors ≠ [] ∨ (false = false ∧ rec.deleted < rec.found)) :=
  ⟨_, rfl, rfl,
    claim_C5_exit_code
      ⟨["p/x"],
        fun k => if k = "p/x" then some ("AccessDenied", "denied") else none,
        fun _ => none⟩
      ["p/"] ["yes"] false _ rfl⟩
